import Mathlib

set_option maxRecDepth 1000000

/-!
Verification of the MO2 PAK/UTOC parser library.

The C++ sources (`pak_reader.cpp`, `utoc_reader.cpp`) are shallowly embedded
here.  Byte buffers are `List Nat` (each element a byte value `< 256`);
strings produced by the readers are byte lists as well (C++ `std::string` is
a byte string).  Fallible reads return `Except`/`Option`.

Modelling conventions (documented once here):
* A C++ `std::ifstream` read that would run past the end of the file leaves
  the stream in a failed state; the reader never checks `good()` afterwards,
  so any subsequent validation fails.  We model such reads as a `truncated`
  error (PAK) or `Option.none` (UTOC), the defined refusal closest to the
  observable behaviour.
* `seekg` to a negative position (footer larger than the file) likewise
  fails; modelled as `truncated`.
* The uninitialised `hash` array of the placeholder `Entry` in the
  PathHashIndex branch is modelled as zeros; no claim observes it.
-/

namespace PakUtoc

/-- Byte buffers and byte strings. -/
abbrev Bytes := List Nat

/-- Little-endian read of `k` bytes from the front of a list, consuming them. -/
def rdLE : Nat → Bytes → Option (Nat × Bytes)
  | 0, l => some (0, l)
  | _ + 1, [] => none
  | k + 1, b :: t => (rdLE k t).map (fun p => (b + 256 * p.1, p.2))

/-- Little-endian encoding of `n` into exactly `k` bytes. -/
def encLE : Nat → Nat → Bytes
  | 0, _ => []
  | k + 1, n => n % 256 :: encLE k (n / 256)

/-- Split off the first `n` bytes, failing when fewer are available. -/
def takeN (n : Nat) (l : Bytes) : Option (Bytes × Bytes) :=
  if n ≤ l.length then some (l.take n, l.drop n) else none

/-- Positional lookup in a vector (C++ `operator[]`, with `none` standing
for an out-of-range access). -/
def nth (l : List α) (i : Nat) : Option α := l.get? i

/-- Group a byte list into little-endian 16-bit code units (pairwise). -/
def toU16List : Bytes → List Nat
  | a :: b :: t => (a + 256 * b) :: toU16List t
  | [a] => [a]
  | [] => []

end PakUtoc

namespace Pak

open PakUtoc

/-- Error kinds raised by the PAK reader (`PakException` messages in the source). -/
inductive PakErr where
  | badMagic
  | versionMismatch
  | invalidBool
  | encrypted
  | truncated
  | openFail
  deriving DecidableEq, Repr

/-- Consume one byte. -/
def pU8 (l : Bytes) : Except PakErr (Nat × Bytes) :=
  match l with
  | [] => .error .truncated
  | b :: t => .ok (b, t)

/-- Consume `k` bytes as a little-endian unsigned integer. -/
def pLE (k : Nat) (l : Bytes) : Except PakErr (Nat × Bytes) :=
  match rdLE k l with
  | none => .error .truncated
  | some p => .ok p

/-- Consume `n` raw bytes. -/
def pBytes (n : Nat) (l : Bytes) : Except PakErr (Bytes × Bytes) :=
  match takeN n l with
  | none => .error .truncated
  | some p => .ok p

/-- Source `read_bool`: one byte that must be 0 or 1. -/
def pBool (l : Bytes) : Except PakErr (Bool × Bytes) := do
  let (b, l) ← pU8 l
  if b = 0 then .ok (false, l)
  else if b = 1 then .ok (true, l)
  else .error .invalidBool

/-- Consume 4 bytes as a little-endian signed 32-bit integer. -/
def pI32 (l : Bytes) : Except PakErr (Int × Bytes) := do
  let (v, l) ← pLE 4 l
  if v < 2 ^ 31 then .ok ((v : Int), l) else .ok ((v : Int) - 2 ^ 32, l)

/-- Source enum `Version` (file-format versions tried by the probe). -/
inductive Version where
  | V0 | V1 | V2 | V3 | V4 | V5 | V6 | V7 | V8A | V8B | V9 | V10 | V11
  deriving DecidableEq, Repr

/-- Underlying integer of the `Version` enum (declaration order in the source). -/
def versionIdx : Version → Nat
  | .V0 => 0 | .V1 => 1 | .V2 => 2 | .V3 => 3 | .V4 => 4 | .V5 => 5 | .V6 => 6
  | .V7 => 7 | .V8A => 8 | .V8B => 9 | .V9 => 10 | .V10 => 11 | .V11 => 12

/-- Source `version_to_major`, with `VersionMajor` by its underlying code
(Unknown=0, Initial=1, NoTimestamps=2, CompressionEncryption=3,
IndexEncryption=4, RelativeChunkOffsets=5, DeleteRecords=6,
EncryptionKeyGuid=7, FNameBasedCompression=8, FrozenIndex=9,
PathHashIndex=10, Fnv64BugFix=11). -/
def version_to_major : Version → Nat
  | .V0 => 0 | .V1 => 1 | .V2 => 2 | .V3 => 3 | .V4 => 4 | .V5 => 5 | .V6 => 6
  | .V7 => 7 | .V8A => 8 | .V8B => 8 | .V9 => 9 | .V10 => 10 | .V11 => 11

/-- Source enum `Compression`. -/
inductive Compression where
  | Zlib | Gzip | Oodle | Zstd | LZ4
  deriving DecidableEq, Repr

/-- PAK magic constant `0x5A6F12E1`. -/
def MAGIC : Nat := 0x5A6F12E1

/-- Source struct `Footer` (the 128-bit encryption uuid is a `Nat < 2^128`;
`version_major` is the raw 32-bit code read from the file). -/
structure Footer where
  encryption_uuid : Option Nat
  encrypted : Bool
  magic : Nat
  version : Version
  version_major : Nat
  index_offset : Nat
  index_size : Nat
  hash : Bytes
  frozen : Bool
  compression : List (Option Compression)
  deriving DecidableEq, Repr

/-- Source struct `Block`. -/
structure Block where
  start : Nat
  stop : Nat
  deriving DecidableEq, Repr

/-- Source struct `Entry`. -/
structure Entry where
  offset : Nat
  compressed_size : Nat
  uncompressed_size : Nat
  compression_slot : Option Nat
  timestamp : Option Nat
  hash : Bytes
  blocks : Option (List Block)
  flags : Nat
  compression_block_size : Nat
  deriving DecidableEq, Repr

/-- Source `get_footer_size`. -/
def get_footer_size (v : Version) : Nat :=
  44 + (if 7 ≤ version_to_major v then 16 else 0)
     + (if 4 ≤ version_to_major v then 1 else 0)
     + (if version_to_major v = 9 then 1 else 0)
     + (if 8 ≤ versionIdx v then 32 * 4 else 0)
     + (if 9 ≤ versionIdx v then 32 else 0)

/-- ASCII bytes of each compression-method name. -/
def nameBytes : Compression → Bytes
  | .Zlib => [90, 108, 105, 98]
  | .Gzip => [71, 122, 105, 112]
  | .Oodle => [79, 111, 100, 108, 101]
  | .Zstd => [90, 115, 116, 100]
  | .LZ4 => [76, 90, 52]

/-- Decode one 32-byte NUL-padded compression-method slot (source lines
reading `char name[32]` in `read_footer`). -/
def decodeCompressionName (raw : Bytes) : Option Compression :=
  let nm := raw.takeWhile (· ≠ 0)
  if nm = [] then none
  else if nm = nameBytes .Zlib then some .Zlib
  else if nm = nameBytes .Gzip then some .Gzip
  else if nm = nameBytes .Oodle then some .Oodle
  else if nm = nameBytes .Zstd then some .Zstd
  else if nm = nameBytes .LZ4 then some .LZ4
  else none

/-- Read `k` 32-byte compression-name slots. -/
def readCompressionNames : Nat → Bytes → Except PakErr (List (Option Compression) × Bytes)
  | 0, l => .ok ([], l)
  | k + 1, l => do
    let (raw, l) ← pBytes 32 l
    let (rest, l) ← readCompressionNames k l
    .ok (decodeCompressionName raw :: rest, l)

/-- Source `PakReader::Impl::read_footer`: seek to `file_size - footer_size`
and read the version-gated footer fields in order. -/
def read_footer (v : Version) (file : Bytes) : Except PakErr Footer :=
  if get_footer_size v ≤ file.length then
    let t0 := file.drop (file.length - get_footer_size v)
    match
      if 7 ≤ version_to_major v then
        (pLE 16 t0).map (fun p => ((some p.1 : Option Nat), p.2))
      else .ok (none, t0) with
    | .error e => .error e
    | .ok (uuid, t) =>
      match if 4 ≤ version_to_major v then pBool t else .ok (false, t) with
      | .error e => .error e
      | .ok (enc, t) =>
        match pLE 4 t with
        | .error e => .error e
        | .ok (mg, t) =>
          if mg = MAGIC then
            match pLE 4 t with
            | .error e => .error e
            | .ok (vm, t) =>
              if version_to_major v = vm then
                match pLE 8 t with
                | .error e => .error e
                | .ok (ioff, t) =>
                  match pLE 8 t with
                  | .error e => .error e
                  | .ok (isz, t) =>
                    match pBytes 20 t with
                    | .error e => .error e
                    | .ok (hsh, t) =>
                      match
                        if version_to_major v = 9 then pBool t
                        else .ok (false, t) with
                      | .error e => .error e
                      | .ok (frz, t) =>
                        match readCompressionNames
                            (if versionIdx v < 8 then 0
                             else if versionIdx v < 9 then 4 else 5) t with
                        | .error e => .error e
                        | .ok (comp, _) =>
                          .ok ⟨uuid, enc, mg, v, vm, ioff, isz, hsh, frz,
                            if version_to_major v < 8 then
                              comp ++ [some .Zlib, some .Gzip, some .Oodle]
                            else comp⟩
              else .error .versionMismatch
          else .error .badMagic
  else .error .truncated

/-- Source `read_string` (PAK): signed length, then bytes or UTF-16 code
units; result truncated at the first NUL; non-ASCII code units become `?`. -/
def read_string (l : Bytes) : Except PakErr (Bytes × Bytes) := do
  let (len, l) ← pI32 l
  if len < 0 then
    let n := (-len).toNat
    let (raw, l) ← pBytes (2 * n) l
    let kept := (toU16List raw).takeWhile (· ≠ 0)
    .ok (kept.map (fun c => if c < 128 then c else 63), l)
  else
    let (raw, l) ← pBytes len.toNat l
    .ok (raw.takeWhile (· ≠ 0), l)

/-- Read `count` compression blocks (`(start, end)` u64 pairs). -/
def readBlocks : Nat → Bytes → Except PakErr (List Block × Bytes)
  | 0, l => .ok ([], l)
  | k + 1, l => do
    let (s, l) ← pLE 8 l
    let (e, l) ← pLE 8 l
    let (rest, l) ← readBlocks k l
    .ok (⟨s, e⟩ :: rest, l)

/-- Source `PakReader::Impl::read_entry` (version-gated record reader). -/
def read_entry (v : Version) (maj : Nat) (l : Bytes) : Except PakErr (Entry × Bytes) := do
  let (off, l) ← pLE 8 l
  let (cs, l) ← pLE 8 l
  let (us, l) ← pLE 8 l
  let (rawSlot, l) ← if v = Version.V8A then pU8 l else pLE 4 l
  let slot : Option Nat := if rawSlot = 0 then none else some (rawSlot - 1)
  let (ts, l) ←
    if maj = 1 then (pLE 8 l).map (fun p => ((some p.1 : Option Nat), p.2))
    else .ok (none, l)
  let (hsh, l) ← pBytes 20 l
  let (blocks, l) ←
    if 3 ≤ maj ∧ slot.isSome then do
      let (bc, l) ← pLE 4 l
      let (bs, l) ← readBlocks bc l
      .ok ((some bs : Option (List Block)), l)
    else .ok (none, l)
  let (flags, cbs, l) ←
    if 3 ≤ maj then do
      let (f, l) ← pU8 l
      let (c, l) ← pLE 4 l
      .ok (f, c, l)
    else .ok (0, 0, l)
  .ok (⟨off, cs, us, slot, ts, hsh, blocks, flags, cbs⟩, l)

/-- Lexicographic byte-wise order on byte strings — the order of
`std::map<std::string, Entry>` (`char_traits::lt` compares as unsigned). -/
def listLt : Bytes → Bytes → Bool
  | [], [] => false
  | [], _ :: _ => true
  | _ :: _, [] => false
  | a :: as, b :: bs =>
    if a < b then true else if b < a then false else listLt as bs

/-- Ordered association list standing for `std::map<std::string, Entry>`. -/
abbrev EntMap := List (Bytes × Entry)

/-- Semantics of `entries_[path] = entry`: ordered insert, assigning the
mapped value when the key is already present. -/
def insertEntry : EntMap → Bytes → Entry → EntMap
  | [], k, v => [(k, v)]
  | (k', v') :: t, k, v =>
    if listLt k k' then (k, v) :: (k', v') :: t
    else if listLt k' k then (k', v') :: insertEntry t k v
    else (k', v) :: t

/-- Lookup in the ordered association list (by key equality). -/
def lookupEntry : EntMap → Bytes → Option Entry
  | [], _ => none
  | (k', v') :: t, k => if k = k' then some v' else lookupEntry t k

/-- Path construction of the full-directory-index branch: append the file
name to the directory (inserting a slash unless the directory is empty or
already ends in one). -/
def dirJoin (dir file : Bytes) : Bytes :=
  if dir ≠ [] ∧ dir.getLast? ≠ some 47 then dir ++ 47 :: file else dir ++ file

/-- Strip a single leading slash, as the PathHashIndex branch does. -/
def stripLeadSlash : Bytes → Bytes
  | [] => []
  | b :: t => if b = 47 then t else b :: t

/-- Full path stored by the full-directory-index branch for one file. -/
def buildDirPath (dir file : Bytes) : Bytes :=
  stripLeadSlash (dirJoin dir file)

/-- The placeholder `Entry` inserted by the PathHashIndex branch (optional
fields default to absent; the uninitialised hash is modelled as zeros). -/
def placeholderEntry : Entry :=
  ⟨0, 0, 0, none, none, List.replicate 20 0, none, 0, 0⟩

/-- Files of one directory record of the full directory index. -/
def readFDIFiles (dir : Bytes) : Nat → Bytes → EntMap → Except PakErr (EntMap × Bytes)
  | 0, l, m => .ok (m, l)
  | k + 1, l, m => do
    let (fn, l) ← read_string l
    let (eo, l) ← pLE 4 l
    let m := if eo = 0x80000000 then m
             else insertEntry m (buildDirPath dir fn) placeholderEntry
    readFDIFiles dir k l m

/-- Directory records of the full directory index. -/
def readFDIDirs : Nat → Bytes → EntMap → Except PakErr EntMap
  | 0, _, m => .ok m
  | k + 1, l, m => do
    let (dn, l) ← read_string l
    let (fc, l) ← pLE 4 l
    let (m, l) ← readFDIFiles dn fc l m
    readFDIDirs k l m

/-- Legacy (pre-V10) index entries: `(path, entry)` pairs. -/
def readEntriesLegacy (v : Version) (maj : Nat) :
    Nat → Bytes → EntMap → Except PakErr EntMap
  | 0, _, m => .ok m
  | k + 1, l, m => do
    let (p, l) ← read_string l
    let (e, l) ← read_entry v maj l
    readEntriesLegacy v maj k l (insertEntry m p e)

/-- Source `PakReader::Impl::read_index`.  The cursor restore after the
full-directory-index seek is omitted: nothing is read afterwards. -/
def read_index (f : Footer) (file : Bytes) : Except PakErr (Bytes × EntMap) :=
  if f.encrypted then .error .encrypted
  else
    let t0 := file.drop f.index_offset
    do
    let (mount, t) ← read_string t0
    let (cnt, t) ← pLE 4 t
    if 10 ≤ f.version_major then do
      let (_seed, t) ← pLE 8 t
      let (phFlag, t) ← pLE 4 t
      let (_, t) ←
        if phFlag ≠ 0 then pBytes 36 t else .ok (([] : Bytes), t)
      let (fdiFlag, t) ← pLE 4 t
      if fdiFlag ≠ 0 then do
        let (fdiOff, t) ← pLE 8 t
        let (_fdiSize, t) ← pLE 8 t
        let (_h, _t) ← pBytes 20 t
        let u0 := file.drop fdiOff
        let (dirCnt, u) ← pLE 4 u0
        let m ← readFDIDirs dirCnt u []
        .ok (mount, m)
      else .ok (mount, [])
    else do
      let m ← readEntriesLegacy f.version f.version_major cnt t []
      .ok (mount, m)

/-- In-memory model built by a successful open. -/
structure PakModel where
  mount : Bytes
  entries : EntMap
  footer : Footer
  deriving DecidableEq, Repr

/-- Source `PakReader::Impl::files`: keys of the ordered map, in map order. -/
def PakModel.files (m : PakModel) : List Bytes :=
  m.entries.map (·.1)

/-- The probe loop body: try each candidate version; `catch (const
std::exception&)` in the source catches every failure and moves on. -/
def tryVersions (file : Bytes) : List Version → Except PakErr PakModel
  | [] => .error .openFail
  | v :: rest =>
    match read_footer v file with
    | .error _ => tryVersions file rest
    | .ok f =>
      match read_index f file with
      | .error _ => tryVersions file rest
      | .ok (mnt, es) => .ok ⟨mnt, es, f⟩

/-- Candidate versions, newest first (`for v = V11; v >= V1; --v`). -/
def candidateVersions : List Version :=
  [.V11, .V10, .V9, .V8B, .V8A, .V7, .V6, .V5, .V4, .V3, .V2, .V1]

/-- Source `PakReader::Impl::Impl`: the whole open operation. -/
def pakOpen (file : Bytes) : Except PakErr PakModel :=
  tryVersions file candidateVersions

end Pak

namespace Utoc

open PakUtoc

/-- Little-endian value of `k` bytes at absolute offset `off`; `none` when
the read would run past the end of the buffer. -/
def leAt (data : Bytes) (off k : Nat) : Option Nat :=
  (rdLE k (data.drop off)).map Prod.fst

/-- Raw slice of `n` bytes at absolute offset `off`. -/
def grab (data : Bytes) (off n : Nat) : Option Bytes :=
  (takeN n (data.drop off)).map Prod.fst

/-- Source `UtocReader::ReadOptional`: a u32 where `0xFFFFFFFF` means absent. -/
def readOpt (data : Bytes) (off : Nat) : Option (Option Nat × Nat) :=
  (leAt data off 4).map (fun v => (if v = 0xFFFFFFFF then none else some v, off + 4))

/-- UTF-8 encoding of one UTF-16 code unit as done by `UtocReader::ReadString`
(BMP only, no surrogate handling). -/
def utf8enc (c : Nat) : Bytes :=
  if c < 0x80 then [c]
  else if c < 0x800 then [0xC0 + c / 64, 0x80 + c % 64]
  else [0xE0 + c / 4096, 0x80 + c / 64 % 64, 0x80 + c % 64]

/-- The UTF-16 unit loop of `UtocReader::ReadString`: read up to `k` units,
stopping after consuming a zero unit. -/
def u16Loop (data : Bytes) : Nat → Nat → Option (List Nat × Nat)
  | 0, off => some ([], off)
  | k + 1, off => do
    let c ← leAt data off 2
    if c = 0 then some ([], off + 2)
    else do
      let (rest, off2) ← u16Loop data k (off + 2)
      some (c :: rest, off2)

/-- Source `UtocReader::ReadString` (offset-based cursor). -/
def ReadString (data : Bytes) (off : Nat) : Option (Bytes × Nat) := do
  let lenU ← leAt data off 4
  let off := off + 4
  let len : Int := if lenU < 2 ^ 31 then (lenU : Int) else (lenU : Int) - 2 ^ 32
  if len = 0 then some ([], off)
  else if len < 0 then do
    let n := (-len).toNat
    let (units, off) ← u16Loop data n off
    let off := if units.length < n then off + (n - units.length) * 2 else off
    some (units.flatMap utf8enc, off)
  else do
    let n := len.toNat
    let raw ← grab data off n
    some (raw.takeWhile (· ≠ 0), off + n)

/-- Source struct `FIoDirectoryIndexEntry`. -/
structure FIoDirectoryIndexEntry where
  name : Option Nat
  first_child_entry : Option Nat
  next_sibling_entry : Option Nat
  first_file_entry : Option Nat
  deriving DecidableEq, Repr

/-- Source struct `FIoFileIndexEntry`. -/
structure FIoFileIndexEntry where
  name : Nat
  next_file_entry : Option Nat
  user_data : Nat
  deriving DecidableEq, Repr

/-- Source struct `FIoDirectoryIndexResource`. -/
structure FIoDirectoryIndexResource where
  mount_point : Bytes
  directory_entries : List FIoDirectoryIndexEntry
  file_entries : List FIoFileIndexEntry
  string_table : List Bytes
  deriving DecidableEq, Repr

/-- Source struct `FIoStoreTocHeader` (the fields the reader consults;
`version` and `container_flags` are kept as raw byte values). -/
structure TocHeader where
  toc_magic : Bytes
  version : Nat
  toc_header_size : Nat
  toc_entry_count : Nat
  toc_compressed_block_entry_count : Nat
  toc_compressed_block_entry_size : Nat
  compression_method_name_count : Nat
  compression_method_name_length : Nat
  compression_block_size : Nat
  directory_index_size : Nat
  partition_count : Nat
  container_id : Nat
  encryption_key_guid : Bytes
  container_flags : Nat
  toc_chunk_perfect_hash_seeds_count : Nat
  partition_size : Nat
  toc_chunks_without_perfect_hash_count : Nat
  deriving DecidableEq, Repr

/-- The 16-byte UTOC magic. -/
def tocMagicBytes : Bytes :=
  [45, 61, 61, 45, 45, 61, 61, 45, 45, 61, 61, 45, 45, 61, 61, 45]

/-- Decode of the 144-byte header memcpy (field offsets follow the C++
struct layout with natural alignment). -/
def parseTocHeader (data : Bytes) : TocHeader where
  toc_magic := data.take 16
  version := (leAt data 16 1).getD 0
  toc_header_size := (leAt data 20 4).getD 0
  toc_entry_count := (leAt data 24 4).getD 0
  toc_compressed_block_entry_count := (leAt data 28 4).getD 0
  toc_compressed_block_entry_size := (leAt data 32 4).getD 0
  compression_method_name_count := (leAt data 36 4).getD 0
  compression_method_name_length := (leAt data 40 4).getD 0
  compression_block_size := (leAt data 44 4).getD 0
  directory_index_size := (leAt data 48 4).getD 0
  partition_count := (leAt data 52 4).getD 0
  container_id := (leAt data 56 8).getD 0
  encryption_key_guid := (grab data 64 16).getD []
  container_flags := (leAt data 80 1).getD 0
  toc_chunk_perfect_hash_seeds_count := (leAt data 84 4).getD 0
  partition_size := (leAt data 88 8).getD 0
  toc_chunks_without_perfect_hash_count := (leAt data 96 4).getD 0

/-- Source struct `FIoStoreTocEntryMeta`. -/
structure TocEntryMeta where
  chunk_hash : Bytes
  flags : Nat
  deriving DecidableEq, Repr

/-- Chunk-metadata loop, `version >= ReplaceIoChunkHashWithIoHash` branch:
a 20-byte hash, then `ReadValue<uint8_t>` advances the cursor past the flag
byte, then the source adds 4 more ("1 byte flags + 3 bytes padding"), so
each record advances the cursor by 25 bytes. -/
def readChunkMetasNew (data : Bytes) : Nat → Nat → Option (List TocEntryMeta × Nat)
  | 0, off => some ([], off)
  | k + 1, off => do
    let h ← grab data off 20
    let f ← leAt data (off + 20) 1
    let (rest, off2) ← readChunkMetasNew data k (off + 20 + 1 + 4)
    some (⟨h, f⟩ :: rest, off2)

/-- Chunk-metadata loop, older-version branch: a 32-byte hash, then
`ReadValue<uint8_t>` advances past the flag byte, then the source adds 1
more, so each record advances the cursor by 34 bytes. -/
def readChunkMetasOld (data : Bytes) : Nat → Nat → Option (List TocEntryMeta × Nat)
  | 0, off => some ([], off)
  | k + 1, off => do
    let h ← grab data off 32
    let f ← leAt data (off + 32) 1
    let (rest, off2) ← readChunkMetasOld data k (off + 32 + 1 + 1)
    some (⟨h, f⟩ :: rest, off2)

/-- Directory-entry records of `ParseDirectoryIndex`. -/
def parseDirEntries (data : Bytes) : Nat → Nat → Option (List FIoDirectoryIndexEntry × Nat)
  | 0, off => some ([], off)
  | k + 1, off => do
    let (nm, off) ← readOpt data off
    let (fc, off) ← readOpt data off
    let (ns, off) ← readOpt data off
    let (ff, off) ← readOpt data off
    let (rest, off2) ← parseDirEntries data k off
    some (⟨nm, fc, ns, ff⟩ :: rest, off2)

/-- File-entry records of `ParseDirectoryIndex`. -/
def parseFileEntries (data : Bytes) : Nat → Nat → Option (List FIoFileIndexEntry × Nat)
  | 0, off => some ([], off)
  | k + 1, off => do
    let nm ← leAt data off 4
    let (nx, off2) ← readOpt data (off + 4)
    let ud ← leAt data off2 4
    let (rest, off3) ← parseFileEntries data k (off2 + 4)
    some (⟨nm, nx, ud⟩ :: rest, off3)

/-- String-table records of `ParseDirectoryIndex`. -/
def parseStrings (data : Bytes) : Nat → Nat → Option (List Bytes × Nat)
  | 0, off => some ([], off)
  | k + 1, off => do
    let (s, off) ← ReadString data off
    let (rest, off2) ← parseStrings data k off
    some (s :: rest, off2)

/-- Source `UtocReader::ParseDirectoryIndex` (reads within its sub-buffer;
the C++ function performs no validation and always returns true — `none`
only models a read past the end of the sub-buffer). -/
def ParseDirectoryIndex (data : Bytes) : Option FIoDirectoryIndexResource := do
  let (mount, off) ← ReadString data 0
  let dCnt ← leAt data off 4
  let (dirs, off) ← parseDirEntries data dCnt (off + 4)
  let fCnt ← leAt data off 4
  let (files, off) ← parseFileEntries data fCnt (off + 4)
  let sCnt ← leAt data off 4
  let (strs, _) ← parseStrings data sCnt (off + 4)
  some ⟨mount, dirs, files, strs⟩

/-- Compression-method names section: `count` entries of `len` bytes each,
each value being the NUL-terminated prefix. -/
def readMethods (data : Bytes) (len : Nat) : Nat → Nat → Option (List Bytes × Nat)
  | 0, off => some ([], off)
  | k + 1, off => do
    let raw ← grab data off len
    let (rest, off2) ← readMethods data len k (off + len)
    some (raw.takeWhile (· ≠ 0) :: rest, off2)

/-- Observable state of a `UtocReader` (the private `file_map_` cache is not
exposed and is omitted). -/
structure UtocState where
  header : TocHeader
  chunk_ids : Bytes
  chunk_offset_lengths : Bytes
  chunk_perfect_hash_seeds : Bytes
  chunk_indices_without_perfect_hash : Bytes
  compression_blocks : Bytes
  compression_methods : List Bytes
  chunk_metas : List TocEntryMeta
  directory_index : FIoDirectoryIndexResource
  deriving DecidableEq, Repr

/-- Header value of a default-constructed reader. -/
def defaultTocHeader : TocHeader :=
  ⟨[], 0, 0, 0, 0, 0, 0, 0, 0, 0, 0, 0, [], 0, 0, 0, 0⟩

/-- State of a default-constructed reader. -/
def defaultUtocState : UtocState :=
  ⟨defaultTocHeader, [], [], [], [], [], [], [], ⟨[], [], [], []⟩⟩

/-- Body of `UtocReader::Open` after the magic check: the nine sequential
sections.  Each failing read returns `false` keeping the state mutated so
far, exactly as the C++ early returns do. -/
def utocOpenBody (s : UtocState) (data : Bytes) : Bool × UtocState :=
  let h := s.header
  let off := 144
  match grab data off (h.toc_entry_count * 12) with
  | none => (false, s)
  | some ci =>
  let s := { s with chunk_ids := ci }
  let off := off + h.toc_entry_count * 12
  match grab data off (h.toc_entry_count * 10) with
  | none => (false, s)
  | some ol =>
  let s := { s with chunk_offset_lengths := ol }
  let off := off + h.toc_entry_count * 10
  let hashStep : Option (UtocState × Nat) :=
    if 5 ≤ h.version then do
      let sd ← grab data off (h.toc_chunk_perfect_hash_seeds_count * 4)
      let off := off + h.toc_chunk_perfect_hash_seeds_count * 4
      let ov ← grab data off (h.toc_chunks_without_perfect_hash_count * 4)
      let off := off + h.toc_chunks_without_perfect_hash_count * 4
      some ({ s with chunk_perfect_hash_seeds := sd,
                     chunk_indices_without_perfect_hash := ov }, off)
    else if 4 ≤ h.version then do
      let sd ← grab data off (h.toc_chunk_perfect_hash_seeds_count * 4)
      some ({ s with chunk_perfect_hash_seeds := sd },
            off + h.toc_chunk_perfect_hash_seeds_count * 4)
    else some (s, off)
  match hashStep with
  | none => (false, s)
  | some (s, off) =>
  match grab data off (h.toc_compressed_block_entry_count * 12) with
  | none => (false, s)
  | some cb =>
  let s := { s with compression_blocks := cb }
  let off := off + h.toc_compressed_block_entry_count * 12
  match readMethods data h.compression_method_name_length
      h.compression_method_name_count off with
  | none => (false, s)
  | some (ms, off) =>
  let s := { s with compression_methods := ms }
  if h.container_flags % 4 / 2 = 1 then (false, s)
  else
  let sigStep : Option Nat :=
    if h.container_flags % 8 / 4 = 1 then do
      let sz ← leAt data off 4
      some (off + 4 + (sz * 2 + 4) + h.toc_compressed_block_entry_count * 20)
    else some off
  match sigStep with
  | none => (false, s)
  | some off =>
  let dirStep : Option (UtocState × Nat) :=
    if h.container_flags % 16 / 8 = 1 ∧ 0 < h.directory_index_size then do
      let dd ← grab data off h.directory_index_size
      let d ← ParseDirectoryIndex dd
      some ({ s with directory_index := d }, off + h.directory_index_size)
    else some (s, off)
  match dirStep with
  | none => (false, s)
  | some (s, off) =>
  let metas :=
    if 8 ≤ h.version then readChunkMetasNew data h.toc_entry_count off
    else readChunkMetasOld data h.toc_entry_count off
  match metas with
  | none => (false, s)
  | some (cm, _) => (true, { s with chunk_metas := cm })

/-- Source `UtocReader::Open`, as a function of the reader state it mutates.
The header memcpy happens before any validation; a file shorter than the
144-byte header is refused without mutation (in C++ such a read is out of
bounds). -/
def utocOpenS (s : UtocState) (data : Bytes) : Bool × UtocState :=
  if data.length < 144 then (false, s)
  else if (parseTocHeader data).toc_magic = tocMagicBytes then
    utocOpenBody { s with header := parseTocHeader data } data
  else (false, { s with header := parseTocHeader data })

/-- Traversal outcomes: an out-of-range vector access, or exhausted fuel
(the C++ recursion has no fuel; it simply never terminates on a cycle). -/
inductive TravErr where
  | oob
  | fuel
  deriving DecidableEq, Repr

/-- Pending work of the `GetAllFilePaths` depth-first traversal. -/
inductive TravJob where
  | dir (i : Nat)
  | files (fi : Option Nat)
  | kids (ci : Option Nat)
  deriving DecidableEq, Repr

/-- Path concatenation of `GetAllFilePaths`: start from the mount point and
append each segment, inserting a slash unless the accumulated path is empty
or already ends in one. -/
def joinPath (mount : Bytes) (segs : List Bytes) : Bytes :=
  segs.foldl
    (fun acc seg =>
      if acc ≠ [] ∧ acc.getLast? ≠ some 47 then acc ++ 47 :: seg else acc ++ seg)
    mount

/-- The recursive lambda inside `FIoDirectoryIndexResource::GetAllFilePaths`,
fueled.  The C++ indexes vectors without bounds checks; an out-of-range
access is surfaced as `TravErr.oob`. -/
def trav (d : FIoDirectoryIndexResource) : Nat → TravJob → List Bytes →
    Except TravErr (List Bytes)
  | 0, _, _ => .error .fuel
  | fuel + 1, job, path =>
    match job with
    | .files none => .ok []
    | .files (some i) =>
      match nth d.file_entries i with
      | none => .error .oob
      | some fe =>
        match nth d.string_table fe.name with
        | none => .error .oob
        | some nm =>
          match trav d fuel (.files fe.next_file_entry) path with
          | .error e => .error e
          | .ok rest => .ok (joinPath d.mount_point (path ++ [nm]) :: rest)
    | .kids none => .ok []
    | .kids (some c) =>
      match trav d fuel (.dir c) path with
      | .error e => .error e
      | .ok r =>
        match nth d.directory_entries c with
        | none => .error .oob
        | some de2 =>
          match trav d fuel (.kids de2.next_sibling_entry) path with
          | .error e => .error e
          | .ok rest => .ok (r ++ rest)
    | .dir i =>
      match nth d.directory_entries i with
      | none => .error .oob
      | some de =>
        match de.name with
        | some n =>
          match nth d.string_table n with
          | none => .error .oob
          | some nm =>
            match trav d fuel (.files de.first_file_entry) (path ++ [nm]) with
            | .error e => .error e
            | .ok fs =>
              match trav d fuel (.kids de.first_child_entry) (path ++ [nm]) with
              | .error e => .error e
              | .ok cs => .ok (fs ++ cs)
        | none =>
          match trav d fuel (.files de.first_file_entry) path with
          | .error e => .error e
          | .ok fs =>
            match trav d fuel (.kids de.first_child_entry) path with
            | .error e => .error e
            | .ok cs => .ok (fs ++ cs)

/-- Source `FIoDirectoryIndexResource::GetAllFilePaths` (fueled). -/
def GetAllFilePaths (d : FIoDirectoryIndexResource) (fuel : Nat) :
    Except TravErr (List Bytes) :=
  if d.directory_entries.isEmpty then .ok [] else trav d fuel (.dir 0) []

end Utoc

namespace Pak

open PakUtoc

/-- Footer-size formula exactly as the specification words it: 44 bytes
(magic + version + index offset + index size + hash), plus 16 if the version
is at least EncryptionKeyGuid, plus 1 if at least IndexEncryption, plus 1 if
exactly FrozenIndex, plus 128 if at least V8A, plus a further 32 if at least
V8B. -/
def specFooterSize (v : Version) : Nat :=
  (4 + 4 + 8 + 8 + 20)
    + (if 7 ≤ version_to_major v then 16 else 0)
    + (if 4 ≤ version_to_major v then 1 else 0)
    + (if version_to_major v = 9 then 1 else 0)
    + (if 8 ≤ versionIdx v then 128 else 0)
    + (if 9 ≤ versionIdx v then 32 else 0)

/-- One 32-byte NUL-padded compression-name slot (reference encoder). -/
def encName : Option Compression → Bytes
  | none => List.replicate 32 0
  | some c => nameBytes c ++ List.replicate (32 - (nameBytes c).length) 0

/-- Compression slots actually present on the wire for version `v`. -/
def wireNames (v : Version) (f : Footer) : List (Option Compression) :=
  if versionIdx v < 8 then [] else f.compression

/-- Reference encoder for the footer layout (test-owned, following the
specification's field order: uuid, encrypted flag, magic, version, index
offset, index size, hash, frozen byte, compression names). -/
def encodeFooter (v : Version) (f : Footer) : Bytes :=
  (if 7 ≤ version_to_major v then encLE 16 (f.encryption_uuid.getD 0) else [])
    ++ (if 4 ≤ version_to_major v then [if f.encrypted then 1 else 0] else [])
    ++ encLE 4 MAGIC
    ++ encLE 4 f.version_major
    ++ encLE 8 f.index_offset
    ++ encLE 8 f.index_size
    ++ f.hash
    ++ (if version_to_major v = 9 then [if f.frozen then 1 else 0] else [])
    ++ (wireNames v f).flatMap encName

/-- Well-formed synthetic footer for version `v`: field presence matches the
version gates and numeric fields fit their wire widths. -/
def wfFooter (v : Version) (f : Footer) : Prop :=
  f.version = v ∧
  f.magic = MAGIC ∧
  f.version_major = version_to_major v ∧
  (if 7 ≤ version_to_major v then
      f.encryption_uuid.isSome = true ∧ f.encryption_uuid.getD 0 < 2 ^ 128
    else f.encryption_uuid = none) ∧
  (4 ≤ version_to_major v ∨ f.encrypted = false) ∧
  f.index_offset < 2 ^ 64 ∧
  f.index_size < 2 ^ 64 ∧
  f.hash.length = 20 ∧
  (version_to_major v = 9 ∨ f.frozen = false) ∧
  (if versionIdx v < 8 then
      f.compression = [some .Zlib, some .Gzip, some .Oodle]
    else if versionIdx v < 9 then f.compression.length = 4
    else f.compression.length = 5)

end Pak

namespace Utoc

/-- An optional index that, when present, is below the bound. -/
def optIdxOk (o : Option Nat) (n : Nat) : Prop :=
  ∀ i, o = some i → i < n

/-- Every index stored in the parsed directory index is within the bounds of
the vector it points into. -/
def WFDirIndex (d : FIoDirectoryIndexResource) : Prop :=
  (∀ de ∈ d.directory_entries,
      optIdxOk de.name d.string_table.length ∧
      optIdxOk de.first_child_entry d.directory_entries.length ∧
      optIdxOk de.next_sibling_entry d.directory_entries.length ∧
      optIdxOk de.first_file_entry d.file_entries.length) ∧
  (∀ fe ∈ d.file_entries,
      fe.name < d.string_table.length ∧
      optIdxOk fe.next_file_entry d.file_entries.length)

/-- Indices referenced by one pending traversal job are in bounds. -/
def jobWf (d : FIoDirectoryIndexResource) : TravJob → Prop
  | .dir i => i < d.directory_entries.length
  | .files o => optIdxOk o d.file_entries.length
  | .kids o => optIdxOk o d.directory_entries.length

end Utoc

namespace Pak

open PakUtoc

/-- A PAK file whose V11 footer declares an encrypted index: 35 pad bytes of
value 2, then a 221-byte V11 footer (uuid of 0x02 bytes, encrypted flag 1,
magic, declared version 11, zero index offset and size, hash of 0x02 bytes,
five all-zero compression-name slots). -/
def c1Bytes : Bytes :=
  List.replicate 35 2
    ++ List.replicate 16 2
    ++ [1]
    ++ encLE 4 MAGIC
    ++ encLE 4 11
    ++ encLE 8 0
    ++ encLE 8 0
    ++ List.replicate 20 2
    ++ List.replicate 160 0

/-- The 128-bit uuid made of sixteen 0x02 bytes. -/
def c1Uuid : Nat := 2 * ((256 ^ 16 - 1) / 255)

/-- Footer the V11 probe attempt decodes from `c1Bytes`. -/
def c1Footer : Footer :=
  ⟨some c1Uuid, true, MAGIC, .V11, 11, 0, 0, List.replicate 20 2, false,
    [none, none, none, none, none]⟩

/-- A legacy V2 PAK containing the single path `/a` (leading slash): empty
mount point, entry count 1, path string, a V2 entry record whose last hash
byte is 2, then the 44-byte V2 footer with index offset 0 and size 63. -/
def c6Bytes : Bytes :=
  encLE 4 0
    ++ encLE 4 1
    ++ encLE 4 3 ++ [47, 97, 0]
    ++ encLE 8 0 ++ encLE 8 0 ++ encLE 8 0
    ++ encLE 4 0
    ++ (List.replicate 19 0 ++ [2])
    ++ encLE 4 MAGIC
    ++ encLE 4 2
    ++ encLE 8 0
    ++ encLE 8 63
    ++ List.replicate 20 0

/-- Footer decoded from `c6Bytes` (V2; synthesized compression table). -/
def c6Footer : Footer :=
  ⟨none, false, MAGIC, .V2, 2, 0, 63, List.replicate 20 0, false,
    [some .Zlib, some .Gzip, some .Oodle]⟩

/-- The single entry decoded from `c6Bytes`. -/
def c6Entry : Entry :=
  ⟨0, 0, 0, none, none, List.replicate 19 0 ++ [2], none, 0, 0⟩

/-- Model produced by opening `c6Bytes`. -/
def c6Model : PakModel :=
  ⟨[], [([47, 97], c6Entry)], c6Footer⟩

/-- The key list of a successful open (empty on failure). -/
def pakFilesOf : Except PakErr PakModel → List Bytes
  | .ok m => m.files
  | .error _ => []

/-- A concrete well-formed V11 footer for the round-trip witness. -/
def c5Footer : Footer :=
  ⟨some 0, false, MAGIC, .V11, 11, 0, 0, List.replicate 20 0, false,
    [none, none, none, none, none]⟩

end Pak

namespace Utoc

open PakUtoc

/-- The byte string `-2` followed by the UTF-16 units `a`, NUL, NUL: a
negative-length engine string whose zero terminator appears before the
declared end. -/
def c3Bytes : Bytes := [254, 255, 255, 255, 97, 0, 0, 0]

/-- A 144-byte UTOC whose magic is correct but whose declared header size is
0 and whose version is 0 (`Invalid`). -/
def c4Bytes : Bytes := tocMagicBytes ++ List.replicate 128 0

/-- A UTOC (version 3, Indexed) whose directory index stores a file whose
name index 5 points into an empty string table: 144-byte header followed by
a 44-byte directory index (empty mount, one root directory whose first file
is entry 0, one file entry with name index 5, zero strings). -/
def c8Bytes : Bytes :=
  tocMagicBytes ++ [3, 0, 0, 0]
    ++ encLE 4 144
    ++ encLE 4 0
    ++ encLE 4 0
    ++ encLE 4 0
    ++ encLE 4 0
    ++ encLE 4 0
    ++ encLE 4 0
    ++ encLE 4 44
    ++ encLE 4 0
    ++ encLE 8 0
    ++ List.replicate 16 0
    ++ [8, 0, 0, 0]
    ++ encLE 4 0
    ++ encLE 8 0
    ++ encLE 4 0
    ++ encLE 4 0
    ++ List.replicate 40 0
    ++ (encLE 4 0
      ++ encLE 4 1
      ++ [255, 255, 255, 255] ++ [255, 255, 255, 255] ++ [255, 255, 255, 255]
      ++ encLE 4 0
      ++ encLE 4 1
      ++ encLE 4 5 ++ [255, 255, 255, 255] ++ encLE 4 0
      ++ encLE 4 0)

/-- A 144-byte buffer of value-7 bytes: wrong magic, nonzero header fields. -/
def c9Bytes : Bytes := List.replicate 144 7

end Utoc

namespace Utoc

/-- A tiny in-bounds directory index: a single root directory with no name,
no children and no files. -/
def c8WfDir : FIoDirectoryIndexResource :=
  ⟨[], [⟨none, none, none, none⟩], [], []⟩

end Utoc

namespace Pak

open PakUtoc

theorem tryVersions_error_eq (file : Bytes) :
    ∀ (vs : List Version) (e : PakErr),
      tryVersions file vs = .error e → e = .openFail := by
  intro vs
  induction vs with
  | nil =>
    intro e h
    simp only [tryVersions, Except.error.injEq] at h
    exact h.symm
  | cons v rest ih =>
    intro e h
    cases hf : read_footer v file with
    | error err =>
      simp only [tryVersions, hf] at h
      exact ih e h
    | ok f =>
      cases hi : read_index f file with
      | error err =>
        simp only [tryVersions, hf, hi] at h
        exact ih e h
      | ok p =>
        obtain ⟨mnt, es⟩ := p
        simp only [tryVersions, hf, hi] at h
        exact Except.noConfusion h

/-- C1 (amended): the PAK version probe catches every failure of a candidate
version — including the encrypted-index refusal — and tries the next one, so
whenever open fails the reported error is always the generic
not-a-recognized-PAK failure, never a specific error such as
EncryptedContainer. -/
theorem claim_C1 (file : Bytes) (e : PakErr) (h : pakOpen file = .error e) :
    e = .openFail :=
  tryVersions_error_eq file candidateVersions e h

theorem claim_C1_witness : PakErr.openFail = PakErr.openFail :=
  claim_C1 c1Bytes .openFail rfl

/-- C1 (counterexample): on `c1Bytes` the V11 footer decodes with
`encrypted = true` and the index read raises the encrypted-index error, yet
open fails with the generic probe failure, not EncryptedContainer — the
probe swallowed the refusal and went on to older versions. -/
theorem claim_C1_counterexample :
    read_footer .V11 c1Bytes = .ok c1Footer ∧
    c1Footer.encrypted = true ∧
    read_index c1Footer c1Bytes = .error .encrypted ∧
    pakOpen c1Bytes = .error .openFail ∧
    PakErr.openFail ≠ PakErr.encrypted :=
  ⟨rfl, rfl, rfl, rfl, by decide⟩

end Pak

namespace Utoc

open PakUtoc

/-- C2: in the UTOC chunk-metadata loop, each record advances the cursor by
25 bytes in the `ReplaceIoChunkHashWithIoHash` format (the flag byte is
consumed by `ReadValue` and then skipped again by the `offset += 4`), and by
34 bytes in the older format — not the 24 and 33 bytes the record layout
declares: two zero-filled new-format records end at offset 50, one
old-format record at offset 34. -/
theorem claim_C2 :
    (readChunkMetasNew (List.replicate 60 0) 2 0).map Prod.snd = some 50 ∧
    (readChunkMetasOld (List.replicate 40 0) 1 0).map Prod.snd = some 34 ∧
    (50 : Nat) ≠ 2 * 24 ∧ (34 : Nat) ≠ 1 * 33 :=
  ⟨rfl, rfl, by decide, by decide⟩

/-- C3: on the negative-length string `c3Bytes` (declared length -2, units
`a`, NUL) the UTOC `ReadString` leaves the cursor at offset 10 instead of
`4 + 2*2 = 8` — the zero code unit is consumed by the loop and then skipped
a second time — while the PAK `read_string` consumes exactly 8 bytes. -/
theorem claim_C3 :
    ReadString c3Bytes 0 = some ([97], 10) ∧
    (10 : Nat) ≠ 4 + 2 * 2 ∧
    Pak.read_string c3Bytes = .ok ([97], []) ∧
    c3Bytes.length = 4 + 2 * 2 :=
  ⟨rfl, by decide, rfl, rfl⟩

/-- C4 (amended): UtocReader::Open validates only the 16-byte magic, so for
every successfully opened UTOC the first 16 bytes of the file equal the
magic literal; no check of the declared header size or of the version enum
is performed. -/
theorem claim_C4 (s : UtocState) (data : Bytes) (st : UtocState)
    (h : utocOpenS s data = (true, st)) : data.take 16 = tocMagicBytes := by
  unfold utocOpenS at h
  split at h
  · cases h
  · split at h
    · next hm => simpa [parseTocHeader] using hm
    · cases h

theorem claim_C4_witness : c4Bytes.take 16 = tocMagicBytes :=
  claim_C4 defaultUtocState c4Bytes (utocOpenS defaultUtocState c4Bytes).2 rfl

/-- C4 (counterexample): `c4Bytes` has a valid magic but declared header
size 0 and version 0 (`Invalid`), and Open still succeeds. -/
theorem claim_C4_counterexample :
    (utocOpenS defaultUtocState c4Bytes).1 = true ∧
    (utocOpenS defaultUtocState c4Bytes).2.header.toc_header_size = 0 ∧
    (0 : Nat) ≠ 144 ∧
    (utocOpenS defaultUtocState c4Bytes).2.header.version = 0 :=
  ⟨rfl, rfl, by decide, rfl⟩

/-- C9 (amended): a failed Open does not restore the reader's state — on any
file of at least 144 bytes whose magic mismatches, Open returns false but
the header field already holds the decoded header of the rejected file. -/
theorem claim_C9 (s : UtocState) (data : Bytes) (h1 : 144 ≤ data.length)
    (h2 : (parseTocHeader data).toc_magic ≠ tocMagicBytes) :
    utocOpenS s data = (false, { s with header := parseTocHeader data }) := by
  unfold utocOpenS
  rw [if_neg (by omega), if_neg h2]

theorem claim_C9_witness :
    utocOpenS defaultUtocState c9Bytes =
      (false, { defaultUtocState with header := parseTocHeader c9Bytes }) :=
  claim_C9 defaultUtocState c9Bytes (by decide) (by decide)

/-- C9 (counterexample): opening the bad-magic file `c9Bytes` fails, yet the
reader's observable state after the call differs from its state before it
(the header now reflects the rejected file). -/
theorem claim_C9_counterexample :
    (utocOpenS defaultUtocState c9Bytes).1 = false ∧
    (utocOpenS defaultUtocState c9Bytes).2 ≠ defaultUtocState :=
  ⟨rfl, by decide⟩

end Utoc

namespace Pak

open PakUtoc

/-- C6 (amended): a path stored by the PathHashIndex full-directory-index
branch never begins with a slash provided the joined directory/file string
does not begin with two slashes (exactly one leading slash is stripped);
paths stored by the legacy branch are stored verbatim, as read. -/
theorem stripLeadSlash_head (l : Bytes) (h : l.take 2 ≠ [47, 47]) :
    (stripLeadSlash l).head? ≠ some 47 := by
  match l with
  | [] => simp [stripLeadSlash]
  | b :: t =>
    by_cases hb : b = 47
    · subst hb
      have hred : stripLeadSlash (47 :: t) = t := by simp [stripLeadSlash]
      rw [hred]
      match t with
      | [] => simp
      | c :: t2 =>
        simp only [List.head?_cons, ne_eq, Option.some.injEq]
        intro hc
        subst hc
        exact h rfl
    · simp [stripLeadSlash, hb]

theorem claim_C6 (dir file : Bytes)
    (h : (dirJoin dir file).take 2 ≠ [47, 47]) :
    (buildDirPath dir file).head? ≠ some 47 :=
  stripLeadSlash_head (dirJoin dir file) h

theorem claim_C6_witness : (buildDirPath [97] [98]).head? ≠ some 47 :=
  claim_C6 [97] [98] (by decide)

/-- C6 (counterexample): the legacy flat-index branch stores paths exactly
as read — opening the V2 file `c6Bytes` succeeds and `files()` contains the
path `/a`, which begins with a slash. -/
theorem claim_C6_counterexample :
    pakOpen c6Bytes = .ok c6Model ∧
    c6Model.files = [[47, 97]] ∧
    ([47, 97] : Bytes).head? = some 47 :=
  ⟨rfl, rfl, rfl⟩

end Pak

namespace Utoc

open PakUtoc

theorem nth_eq_get {α : Type} (l : List α) (i : Nat) (h : i < l.length) :
    PakUtoc.nth l i = some (l.get ⟨i, h⟩) :=
  List.get?_eq_get h

theorem trav_no_oob (d : FIoDirectoryIndexResource) (hwf : WFDirIndex d) :
    ∀ (fuel : Nat) (job : TravJob) (path : List Bytes),
      jobWf d job → trav d fuel job path ≠ .error .oob := by
  intro fuel
  induction fuel with
  | zero => intro job path _; simp [trav]
  | succ n ih =>
    intro job path hj
    match job with
    | .files none => simp [trav]
    | .files (some i) =>
      have hi : i < d.file_entries.length := hj i rfl
      have hget := nth_eq_get d.file_entries i hi
      have hmem : d.file_entries.get ⟨i, hi⟩ ∈ d.file_entries :=
        List.get_mem _ _ _
      obtain ⟨hname, hnext⟩ := hwf.2 _ hmem
      have hsget := nth_eq_get d.string_table _ hname
      simp only [trav, hget, hsget]
      cases hr : trav d n (.files (d.file_entries.get ⟨i, hi⟩).next_file_entry) path with
      | error e =>
        have he : e ≠ .oob := fun h2 =>
          ih (.files (d.file_entries.get ⟨i, hi⟩).next_file_entry) path hnext
            (by rw [hr, h2])
        simp [he]
      | ok r => simp
    | .kids none => simp [trav]
    | .kids (some c) =>
      have hc : c < d.directory_entries.length := hj c rfl
      have hget := nth_eq_get d.directory_entries c hc
      have hmem : d.directory_entries.get ⟨c, hc⟩ ∈ d.directory_entries :=
        List.get_mem _ _ _
      obtain ⟨-, -, hsib, -⟩ := hwf.1 _ hmem
      simp only [trav]
      cases hr : trav d n (.dir c) path with
      | error e =>
        have he : e ≠ .oob := fun h2 => ih (.dir c) path hc (by rw [hr, h2])
        simp [he]
      | ok r =>
        simp only [hget]
        cases hr2 : trav d n
            (.kids (d.directory_entries.get ⟨c, hc⟩).next_sibling_entry) path with
        | error e =>
          have he : e ≠ .oob := fun h2 =>
            ih (.kids (d.directory_entries.get ⟨c, hc⟩).next_sibling_entry) path hsib
              (by rw [hr2, h2])
          simp [he]
        | ok r2 => simp
    | .dir i =>
      have hi : i < d.directory_entries.length := hj
      have hget := nth_eq_get d.directory_entries i hi
      have hmem : d.directory_entries.get ⟨i, hi⟩ ∈ d.directory_entries :=
        List.get_mem _ _ _
      obtain ⟨hname, hkid, -, hfile⟩ := hwf.1 _ hmem
      simp only [trav, hget]
      cases hn : (d.directory_entries.get ⟨i, hi⟩).name with
      | some nidx =>
        have hnb : nidx < d.string_table.length := hname nidx hn
        have hsget := nth_eq_get d.string_table nidx hnb
        simp only [hsget]
        cases hr : trav d n
            (.files (d.directory_entries.get ⟨i, hi⟩).first_file_entry)
            (path ++ [d.string_table.get ⟨nidx, hnb⟩]) with
        | error e =>
          have he : e ≠ .oob := fun h2 =>
            ih (.files (d.directory_entries.get ⟨i, hi⟩).first_file_entry)
              (path ++ [d.string_table.get ⟨nidx, hnb⟩]) hfile (by rw [hr, h2])
          simp [he]
        | ok r =>
          cases hr2 : trav d n
              (.kids (d.directory_entries.get ⟨i, hi⟩).first_child_entry)
              (path ++ [d.string_table.get ⟨nidx, hnb⟩]) with
          | error e =>
            have he : e ≠ .oob := fun h2 =>
              ih (.kids (d.directory_entries.get ⟨i, hi⟩).first_child_entry)
                (path ++ [d.string_table.get ⟨nidx, hnb⟩]) hkid (by rw [hr2, h2])
            simp [he]
          | ok r2 => simp
      | none =>
        cases hr : trav d n
            (.files (d.directory_entries.get ⟨i, hi⟩).first_file_entry) path with
        | error e =>
          have he : e ≠ .oob := fun h2 =>
            ih (.files (d.directory_entries.get ⟨i, hi⟩).first_file_entry)
              path hfile (by rw [hr, h2])
          simp [he]
        | ok r =>
          cases hr2 : trav d n
              (.kids (d.directory_entries.get ⟨i, hi⟩).first_child_entry) path with
          | error e =>
            have he : e ≠ .oob := fun h2 =>
              ih (.kids (d.directory_entries.get ⟨i, hi⟩).first_child_entry)
                path hkid (by rw [hr2, h2])
            simp [he]
          | ok r2 => simp

/-- C8 (amended): Open performs no bounds validation on the directory index,
so a successfully opened UTOC may hold out-of-range indices; the unchecked
indexing of GetAllFilePaths stays in range whenever every index stored in
the parsed directory index is within the bounds of its vector. -/
theorem claim_C8 (d : FIoDirectoryIndexResource) (hwf : WFDirIndex d)
    (fuel : Nat) : GetAllFilePaths d fuel ≠ .error .oob := by
  unfold GetAllFilePaths
  split
  · simp
  · next hne =>
    apply trav_no_oob d hwf fuel (.dir 0) []
    have : d.directory_entries ≠ [] := by simpa [List.isEmpty_iff] using hne
    simpa [jobWf] using List.length_pos.mpr this

end Utoc

namespace Utoc

theorem c8WfDir_wf : WFDirIndex c8WfDir := by
  constructor
  · intro de hde
    simp only [c8WfDir, List.mem_singleton] at hde
    subst hde
    refine ⟨?_, ?_, ?_, ?_⟩ <;> exact fun i h => by cases h
  · intro fe hfe
    simp [c8WfDir] at hfe

theorem claim_C8_witness : GetAllFilePaths c8WfDir 5 ≠ Except.error .oob :=
  claim_C8 c8WfDir c8WfDir_wf 5

/-- C8 (counterexample): opening `c8Bytes` succeeds, yet its directory index
stores the out-of-range string index 5, and the traversal performed by
GetAllFilePaths reads out of range. -/
theorem claim_C8_counterexample :
    (utocOpenS defaultUtocState c8Bytes).1 = true ∧
    GetAllFilePaths (utocOpenS defaultUtocState c8Bytes).2.directory_index 10 =
      .error .oob :=
  ⟨rfl, rfl⟩

end Utoc

namespace Pak
open PakUtoc

theorem except_bind_ok {ε α β : Type} {x : Except ε α} {f : α → Except ε β} {b : β}
    (h : x >>= f = .ok b) : ∃ a, x = .ok a ∧ f a = .ok b := by
  cases x with
  | error e => exact absurd h (by simp [Bind.bind, Except.bind])
  | ok a => exact ⟨a, rfl, by simpa [Bind.bind, Except.bind] using h⟩

theorem mem_insertEntry (m : EntMap) (k : Bytes) (v : Entry) (p : Bytes × Entry)
    (hp : p ∈ insertEntry m k v) : p.2 = v ∨ p ∈ m := by
  induction m with
  | nil =>
    simp only [insertEntry, List.mem_singleton] at hp
    subst hp
    exact Or.inl rfl
  | cons a t ih =>
    obtain ⟨ka, va⟩ := a
    simp only [insertEntry] at hp
    split at hp
    · rcases List.mem_cons.mp hp with h2 | h2
      · subst h2; exact Or.inl rfl
      · exact Or.inr h2
    · split at hp
      · rcases List.mem_cons.mp hp with h2 | h2
        · subst h2; exact Or.inr (List.mem_cons_self _ _)
        · rcases ih h2 with h3 | h3
          · exact Or.inl h3
          · exact Or.inr (List.mem_cons_of_mem _ h3)
      · rcases List.mem_cons.mp hp with h2 | h2
        · subst h2; exact Or.inl rfl
        · exact Or.inr (List.mem_cons_of_mem _ h2)

theorem read_entry_blocks (v : Version) (maj : Nat) (l l2 : Bytes) (e : Entry)
    (h : read_entry v maj l = .ok (e, l2)) :
    e.blocks.isSome ↔ (e.compression_slot.isSome ∧ 3 ≤ maj) := by
  unfold read_entry at h
  simp only [bind, Except.bind] at h
  repeat' split at h
  all_goals (try exact Except.noConfusion h)
  all_goals (simp only [Except.ok.injEq, Prod.mk.injEq] at h;
             obtain ⟨he, -⟩ := h; subst he)
  all_goals simp_all

theorem readEntriesLegacy_inv (v : Version) (maj : Nat) :
    ∀ (n : Nat) (l : Bytes) (m0 m1 : EntMap),
      readEntriesLegacy v maj n l m0 = .ok m1 →
      (∀ p ∈ m0, p.2.blocks.isSome ↔ (p.2.compression_slot.isSome ∧ 3 ≤ maj)) →
      ∀ p ∈ m1, p.2.blocks.isSome ↔ (p.2.compression_slot.isSome ∧ 3 ≤ maj) := by
  intro n
  induction n with
  | zero =>
    intro l m0 m1 h h0
    simp only [readEntriesLegacy, Except.ok.injEq] at h
    subst h
    exact h0
  | succ k ih =>
    intro l m0 m1 h h0
    cases hs : read_string l with
    | error err =>
      simp only [readEntriesLegacy, bind, Except.bind, hs] at h
      exact Except.noConfusion h
    | ok pr =>
      obtain ⟨p, l3⟩ := pr
      cases he : read_entry v maj l3 with
      | error err =>
        simp only [readEntriesLegacy, bind, Except.bind, hs, he] at h
        exact Except.noConfusion h
      | ok er =>
        obtain ⟨e, l4⟩ := er
        simp only [readEntriesLegacy, bind, Except.bind, hs, he] at h
        refine ih l4 (insertEntry m0 p e) m1 h ?_
        intro q hq
        rcases mem_insertEntry _ _ _ _ hq with h2 | h2
        · rw [h2]; exact read_entry_blocks v maj l3 l4 e he
        · exact h0 q h2

end Pak

namespace Pak
open PakUtoc

theorem readFDIFiles_pres (Q : Entry → Prop) (hQ : Q placeholderEntry) (dir : Bytes) :
    ∀ (n : Nat) (l : Bytes) (m0 m1 : EntMap) (l2 : Bytes),
      readFDIFiles dir n l m0 = .ok (m1, l2) →
      (∀ p ∈ m0, Q p.2) → ∀ p ∈ m1, Q p.2 := by
  intro n
  induction n with
  | zero =>
    intro l m0 m1 l2 h h0
    simp only [readFDIFiles, Except.ok.injEq, Prod.mk.injEq] at h
    obtain ⟨h1, -⟩ := h
    subst h1
    exact h0
  | succ k ih =>
    intro l m0 m1 l2 h h0
    cases hs : read_string l with
    | error err =>
      simp only [readFDIFiles, bind, Except.bind, hs] at h
      exact Except.noConfusion h
    | ok pr =>
      obtain ⟨fn, l3⟩ := pr
      cases ho : pLE 4 l3 with
      | error err =>
        simp only [readFDIFiles, bind, Except.bind, hs, ho] at h
        exact Except.noConfusion h
      | ok por =>
        obtain ⟨eo, l4⟩ := por
        simp only [readFDIFiles, bind, Except.bind, hs, ho] at h
        refine ih l4 _ m1 l2 h ?_
        intro q hq
        by_cases heo : eo = 0x80000000
        · rw [if_pos heo] at hq
          exact h0 q hq
        · rw [if_neg heo] at hq
          rcases mem_insertEntry _ _ _ _ hq with h2 | h2
          · rw [h2]; exact hQ
          · exact h0 q h2

theorem readFDIDirs_pres (Q : Entry → Prop) (hQ : Q placeholderEntry) :
    ∀ (n : Nat) (l : Bytes) (m0 m1 : EntMap),
      readFDIDirs n l m0 = .ok m1 →
      (∀ p ∈ m0, Q p.2) → ∀ p ∈ m1, Q p.2 := by
  intro n
  induction n with
  | zero =>
    intro l m0 m1 h h0
    simp only [readFDIDirs, Except.ok.injEq] at h
    subst h
    exact h0
  | succ k ih =>
    intro l m0 m1 h h0
    cases hs : read_string l with
    | error err =>
      simp only [readFDIDirs, bind, Except.bind, hs] at h
      exact Except.noConfusion h
    | ok pr =>
      obtain ⟨dn, l3⟩ := pr
      cases hc : pLE 4 l3 with
      | error err =>
        simp only [readFDIDirs, bind, Except.bind, hs, hc] at h
        exact Except.noConfusion h
      | ok por =>
        obtain ⟨fc, l4⟩ := por
        cases hf : readFDIFiles dn fc l4 m0 with
        | error err =>
          simp only [readFDIDirs, bind, Except.bind, hs, hc, hf] at h
          exact Except.noConfusion h
        | ok mr =>
          obtain ⟨m2, l5⟩ := mr
          simp only [readFDIDirs, bind, Except.bind, hs, hc, hf] at h
          exact ih l5 m2 m1 h (readFDIFiles_pres Q hQ dn fc l4 m0 m2 l5 hf h0)

theorem read_index_inv (f : Footer) (file : Bytes) (mnt : Bytes) (es : EntMap)
    (h : read_index f file = .ok (mnt, es)) :
    ∀ p ∈ es,
      p.2.blocks.isSome ↔ (p.2.compression_slot.isSome ∧ 3 ≤ f.version_major) := by
  unfold read_index at h
  cases henc : f.encrypted with
  | true => rw [if_pos (by rw [henc])] at h; exact Except.noConfusion h
  | false =>
    rw [if_neg (by rw [henc]; exact Bool.false_ne_true)] at h
    obtain ⟨⟨mount, t1⟩, h1, h⟩ := except_bind_ok h
    try simp only [] at h
    obtain ⟨⟨cnt, t2⟩, h2, h⟩ := except_bind_ok h
    try simp only [] at h
    by_cases h10 : 10 ≤ f.version_major
    · rw [if_pos h10] at h
      obtain ⟨⟨seed, t3⟩, h3, h⟩ := except_bind_ok h
      try simp only [] at h
      obtain ⟨⟨phf, t4⟩, h4, h⟩ := except_bind_ok h
      try simp only [] at h
      by_cases hph : phf ≠ 0
      · rw [if_pos hph] at h
        obtain ⟨⟨skip, t5⟩, h5, h⟩ := except_bind_ok h
        try simp only [] at h
        obtain ⟨⟨fdif, t6⟩, h6, h⟩ := except_bind_ok h
        try simp only [] at h
        by_cases hff : fdif ≠ 0
        · rw [if_pos hff] at h
          obtain ⟨⟨fo, t7⟩, h7, h⟩ := except_bind_ok h
          try simp only [] at h
          obtain ⟨⟨fsz, t8⟩, h8, h⟩ := except_bind_ok h
          try simp only [] at h
          obtain ⟨⟨hh, t9⟩, h9, h⟩ := except_bind_ok h
          try simp only [] at h
          obtain ⟨⟨dc, u1⟩, h10b, h⟩ := except_bind_ok h
          try simp only [] at h
          obtain ⟨m2, h11, h⟩ := except_bind_ok h
          try simp only [] at h
          simp only [Except.ok.injEq, Prod.mk.injEq] at h
          obtain ⟨-, h13⟩ := h
          subst h13
          exact readFDIDirs_pres
            (fun e => e.blocks.isSome ↔ (e.compression_slot.isSome ∧ 3 ≤ f.version_major))
            (by simp [placeholderEntry]) dc u1 [] _ h11 (by intro p hp; cases hp)
        · rw [if_neg hff] at h
          simp only [Except.ok.injEq, Prod.mk.injEq] at h
          obtain ⟨-, h13⟩ := h
          subst h13
          intro p hp
          cases hp
      · rw [if_neg hph] at h
        obtain ⟨⟨skip, t5⟩, h5, h⟩ := except_bind_ok h
        try simp only [] at h
        obtain ⟨⟨fdif, t6⟩, h6, h⟩ := except_bind_ok h
        try simp only [] at h
        by_cases hff : fdif ≠ 0
        · rw [if_pos hff] at h
          obtain ⟨⟨fo, t7⟩, h7, h⟩ := except_bind_ok h
          try simp only [] at h
          obtain ⟨⟨fsz, t8⟩, h8, h⟩ := except_bind_ok h
          try simp only [] at h
          obtain ⟨⟨hh, t9⟩, h9, h⟩ := except_bind_ok h
          try simp only [] at h
          obtain ⟨⟨dc, u1⟩, h10b, h⟩ := except_bind_ok h
          try simp only [] at h
          obtain ⟨m2, h11, h⟩ := except_bind_ok h
          try simp only [] at h
          simp only [Except.ok.injEq, Prod.mk.injEq] at h
          obtain ⟨-, h13⟩ := h
          subst h13
          exact readFDIDirs_pres
            (fun e => e.blocks.isSome ↔ (e.compression_slot.isSome ∧ 3 ≤ f.version_major))
            (by simp [placeholderEntry]) dc u1 [] _ h11 (by intro p hp; cases hp)
        · rw [if_neg hff] at h
          simp only [Except.ok.injEq, Prod.mk.injEq] at h
          obtain ⟨-, h13⟩ := h
          subst h13
          intro p hp
          cases hp
    · rw [if_neg h10] at h
      obtain ⟨m2, h11, h⟩ := except_bind_ok h
      try simp only [] at h
      simp only [Except.ok.injEq, Prod.mk.injEq] at h
      obtain ⟨-, h13⟩ := h
      subst h13
      exact readEntriesLegacy_inv f.version f.version_major cnt t2 [] _ h11
        (by intro p hp; cases hp)

end Pak

namespace Pak
open PakUtoc

theorem tryVersions_inv (file : Bytes) :
    ∀ (vs : List Version) (m : PakModel), tryVersions file vs = .ok m →
      ∀ p ∈ m.entries,
        p.2.blocks.isSome ↔
          (p.2.compression_slot.isSome ∧ 3 ≤ m.footer.version_major) := by
  intro vs
  induction vs with
  | nil =>
    intro m h
    simp only [tryVersions] at h
    exact Except.noConfusion h
  | cons v rest ih =>
    intro m h
    cases hf : read_footer v file with
    | error err =>
      simp only [tryVersions, hf] at h
      exact ih m h
    | ok f =>
      cases hi : read_index f file with
      | error err =>
        simp only [tryVersions, hf, hi] at h
        exact ih m h
      | ok pr =>
        obtain ⟨mnt, es⟩ := pr
        simp only [tryVersions, hf, hi, Except.ok.injEq] at h
        subst h
        exact read_index_inv f file mnt es hi

/-- C7: in every successfully opened PAK model, an entry carries a block
list exactly when its compression slot is present and the version major is
at least CompressionEncryption — for entries decoded by the entry reader and
for the placeholder entries of the PathHashIndex branch alike. -/
theorem claim_C7 (file : Bytes) (m : PakModel) (h : pakOpen file = .ok m) :
    ∀ p ∈ m.entries,
      p.2.blocks.isSome ↔
        (p.2.compression_slot.isSome ∧ 3 ≤ m.footer.version_major) :=
  tryVersions_inv file candidateVersions m h

theorem claim_C7_witness :
    c6Entry.blocks.isSome ↔
      (c6Entry.compression_slot.isSome ∧ 3 ≤ c6Model.footer.version_major) :=
  claim_C7 c6Bytes c6Model rfl ([47, 97], c6Entry) (by simp [c6Model])

end Pak

namespace Pak
open PakUtoc

theorem listLt_irrefl : ∀ a : Bytes, listLt a a = false := by
  intro a
  induction a with
  | nil => rfl
  | cons b t ih => simp [listLt, ih]

theorem listLt_eq_of_not (a : Bytes) :
    ∀ b : Bytes, listLt a b = false → listLt b a = false → a = b := by
  induction a with
  | nil =>
    intro b h1 h2
    cases b with
    | nil => rfl
    | cons y s => simp [listLt] at h1
  | cons x t ih =>
    intro b h1 h2
    cases b with
    | nil => simp [listLt] at h2
    | cons y s =>
      by_cases hxy : x < y
      · simp [listLt, hxy] at h1
      · by_cases hyx : y < x
        · simp [listLt, hyx] at h2
        · have hx : x = y := by omega
          subst hx
          simp only [listLt, if_neg hxy, if_neg hyx] at h1 h2
          rw [ih s h1 h2]

/-- Strict key order between adjacent pairs of the entry map. -/
theorem insertEntry_head_cases (t : EntMap) (k : Bytes) (v : Entry) :
    ∀ y, (insertEntry t k v).head? = some y →
      y.1 = k ∨ ∃ z, t.head? = some z ∧ y.1 = z.1 := by
  cases t with
  | nil =>
    intro y hy
    simp only [insertEntry, List.head?_cons, Option.some.injEq] at hy
    subst hy
    exact Or.inl rfl
  | cons a t2 =>
    obtain ⟨ka, va⟩ := a
    intro y hy
    simp only [insertEntry] at hy
    by_cases h1 : listLt k ka = true
    · rw [if_pos h1] at hy
      simp only [List.head?_cons, Option.some.injEq] at hy
      subst hy
      exact Or.inl rfl
    · rw [if_neg h1] at hy
      by_cases h2 : listLt ka k = true
      · rw [if_pos h2] at hy
        simp only [List.head?_cons, Option.some.injEq] at hy
        subst hy
        exact Or.inr ⟨(ka, va), rfl, rfl⟩
      · rw [if_neg h2] at hy
        simp only [List.head?_cons, Option.some.injEq] at hy
        subst hy
        exact Or.inr ⟨(ka, va), rfl, rfl⟩

theorem chain'_insertEntry (m : EntMap) (k : Bytes) (v : Entry)
    (h : List.Chain' (fun a b => listLt a.1 b.1 = true) m) :
    List.Chain' (fun a b => listLt a.1 b.1 = true) (insertEntry m k v) := by
  induction m with
  | nil => simp [insertEntry]
  | cons a t ih =>
    obtain ⟨ka, va⟩ := a
    rw [List.chain'_cons'] at h
    obtain ⟨hhd, htl⟩ := h
    simp only [insertEntry]
    by_cases h1 : listLt k ka = true
    · rw [if_pos h1]
      exact List.Chain'.cons h1 (List.chain'_cons'.mpr ⟨hhd, htl⟩)
    · rw [if_neg h1]
      by_cases h2 : listLt ka k = true
      · rw [if_pos h2]
        apply List.chain'_cons'.mpr
        refine ⟨?_, ih htl⟩
        intro y hy
        rcases insertEntry_head_cases t k v y hy with hk | ⟨z, hz, he⟩
        · show listLt ka y.1 = true
          rw [hk]
          exact h2
        · show listLt ka y.1 = true
          rw [he]
          exact hhd z hz
      · rw [if_neg h2]
        apply List.chain'_cons'.mpr
        exact ⟨fun y hy => hhd y hy, htl⟩

theorem lookupEntry_insertEntry (m : EntMap) (k : Bytes) (v : Entry) :
    lookupEntry (insertEntry m k v) k = some v := by
  induction m with
  | nil => simp [insertEntry, lookupEntry]
  | cons a t ih =>
    obtain ⟨ka, va⟩ := a
    simp only [insertEntry]
    by_cases h1 : listLt k ka = true
    · rw [if_pos h1]
      simp [lookupEntry]
    · rw [if_neg h1]
      by_cases h2 : listLt ka k = true
      · rw [if_pos h2]
        have hne : k ≠ ka := by
          intro he
          subst he
          rw [listLt_irrefl] at h2
          exact Bool.false_ne_true h2
        simp [lookupEntry, hne, ih]
      · rw [if_neg h2]
        have hf1 : listLt k ka = false := by simpa using h1
        have hf2 : listLt ka k = false := by simpa using h2
        have he : k = ka := listLt_eq_of_not k ka hf1 hf2
        simp [lookupEntry, he]

end Pak

namespace Pak
open PakUtoc

theorem readFDIFiles_sorted (dir : Bytes) :
    ∀ (n : Nat) (l : Bytes) (m0 m1 : EntMap) (l2 : Bytes),
      readFDIFiles dir n l m0 = .ok (m1, l2) →
      List.Chain' (fun a b => listLt a.1 b.1 = true) m0 →
      List.Chain' (fun a b => listLt a.1 b.1 = true) m1 := by
  intro n
  induction n with
  | zero =>
    intro l m0 m1 l2 h h0
    simp only [readFDIFiles, Except.ok.injEq, Prod.mk.injEq] at h
    obtain ⟨h1, -⟩ := h
    subst h1
    exact h0
  | succ k ih =>
    intro l m0 m1 l2 h h0
    cases hs : read_string l with
    | error err =>
      simp only [readFDIFiles, bind, Except.bind, hs] at h
      exact Except.noConfusion h
    | ok pr =>
      obtain ⟨fn, l3⟩ := pr
      cases ho : pLE 4 l3 with
      | error err =>
        simp only [readFDIFiles, bind, Except.bind, hs, ho] at h
        exact Except.noConfusion h
      | ok por =>
        obtain ⟨eo, l4⟩ := por
        simp only [readFDIFiles, bind, Except.bind, hs, ho] at h
        refine ih l4 _ m1 l2 h ?_
        by_cases heo : eo = 0x80000000
        · rw [if_pos heo]
          exact h0
        · rw [if_neg heo]
          exact chain'_insertEntry m0 _ _ h0

theorem readFDIDirs_sorted :
    ∀ (n : Nat) (l : Bytes) (m0 m1 : EntMap),
      readFDIDirs n l m0 = .ok m1 →
      List.Chain' (fun a b => listLt a.1 b.1 = true) m0 →
      List.Chain' (fun a b => listLt a.1 b.1 = true) m1 := by
  intro n
  induction n with
  | zero =>
    intro l m0 m1 h h0
    simp only [readFDIDirs, Except.ok.injEq] at h
    subst h
    exact h0
  | succ k ih =>
    intro l m0 m1 h h0
    cases hs : read_string l with
    | error err =>
      simp only [readFDIDirs, bind, Except.bind, hs] at h
      exact Except.noConfusion h
    | ok pr =>
      obtain ⟨dn, l3⟩ := pr
      cases hc : pLE 4 l3 with
      | error err =>
        simp only [readFDIDirs, bind, Except.bind, hs, hc] at h
        exact Except.noConfusion h
      | ok por =>
        obtain ⟨fc, l4⟩ := por
        cases hf : readFDIFiles dn fc l4 m0 with
        | error err =>
          simp only [readFDIDirs, bind, Except.bind, hs, hc, hf] at h
          exact Except.noConfusion h
        | ok mr =>
          obtain ⟨m2, l5⟩ := mr
          simp only [readFDIDirs, bind, Except.bind, hs, hc, hf] at h
          exact ih l5 m2 m1 h (readFDIFiles_sorted dn fc l4 m0 m2 l5 hf h0)

theorem readEntriesLegacy_sorted (v : Version) (maj : Nat) :
    ∀ (n : Nat) (l : Bytes) (m0 m1 : EntMap),
      readEntriesLegacy v maj n l m0 = .ok m1 →
      List.Chain' (fun a b => listLt a.1 b.1 = true) m0 →
      List.Chain' (fun a b => listLt a.1 b.1 = true) m1 := by
  intro n
  induction n with
  | zero =>
    intro l m0 m1 h h0
    simp only [readEntriesLegacy, Except.ok.injEq] at h
    subst h
    exact h0
  | succ k ih =>
    intro l m0 m1 h h0
    cases hs : read_string l with
    | error err =>
      simp only [readEntriesLegacy, bind, Except.bind, hs] at h
      exact Except.noConfusion h
    | ok pr =>
      obtain ⟨p, l3⟩ := pr
      cases he : read_entry v maj l3 with
      | error err =>
        simp only [readEntriesLegacy, bind, Except.bind, hs, he] at h
        exact Except.noConfusion h
      | ok er =>
        obtain ⟨e, l4⟩ := er
        simp only [readEntriesLegacy, bind, Except.bind, hs, he] at h
        exact ih l4 _ m1 h (chain'_insertEntry m0 p e h0)

theorem read_index_sorted (f : Footer) (file : Bytes) (mnt : Bytes) (es : EntMap)
    (h : read_index f file = .ok (mnt, es)) :
    List.Chain' (fun a b => listLt a.1 b.1 = true) es := by
  unfold read_index at h
  cases henc : f.encrypted with
  | true => rw [if_pos (by rw [henc])] at h; exact Except.noConfusion h
  | false =>
    rw [if_neg (by rw [henc]; exact Bool.false_ne_true)] at h
    obtain ⟨⟨mount, t1⟩, h1, h⟩ := except_bind_ok h
    try simp only [] at h
    obtain ⟨⟨cnt, t2⟩, h2, h⟩ := except_bind_ok h
    try simp only [] at h
    by_cases h10 : 10 ≤ f.version_major
    · rw [if_pos h10] at h
      obtain ⟨⟨seed, t3⟩, h3, h⟩ := except_bind_ok h
      try simp only [] at h
      obtain ⟨⟨phf, t4⟩, h4, h⟩ := except_bind_ok h
      try simp only [] at h
      by_cases hph : phf ≠ 0
      · rw [if_pos hph] at h
        obtain ⟨⟨skip, t5⟩, h5, h⟩ := except_bind_ok h
        try simp only [] at h
        obtain ⟨⟨fdif, t6⟩, h6, h⟩ := except_bind_ok h
        try simp only [] at h
        by_cases hff : fdif ≠ 0
        · rw [if_pos hff] at h
          obtain ⟨⟨fo, t7⟩, h7, h⟩ := except_bind_ok h
          try simp only [] at h
          obtain ⟨⟨fsz, t8⟩, h8, h⟩ := except_bind_ok h
          try simp only [] at h
          obtain ⟨⟨hh, t9⟩, h9, h⟩ := except_bind_ok h
          try simp only [] at h
          obtain ⟨⟨dc, u1⟩, h10b, h⟩ := except_bind_ok h
          try simp only [] at h
          obtain ⟨m2, h11, h⟩ := except_bind_ok h
          try simp only [] at h
          simp only [Except.ok.injEq, Prod.mk.injEq] at h
          obtain ⟨-, h13⟩ := h
          subst h13
          exact readFDIDirs_sorted dc u1 [] _ h11 List.chain'_nil
        · rw [if_neg hff] at h
          simp only [Except.ok.injEq, Prod.mk.injEq] at h
          obtain ⟨-, h13⟩ := h
          subst h13
          exact List.chain'_nil
      · rw [if_neg hph] at h
        obtain ⟨⟨skip, t5⟩, h5, h⟩ := except_bind_ok h
        try simp only [] at h
        obtain ⟨⟨fdif, t6⟩, h6, h⟩ := except_bind_ok h
        try simp only [] at h
        by_cases hff : fdif ≠ 0
        · rw [if_pos hff] at h
          obtain ⟨⟨fo, t7⟩, h7, h⟩ := except_bind_ok h
          try simp only [] at h
          obtain ⟨⟨fsz, t8⟩, h8, h⟩ := except_bind_ok h
          try simp only [] at h
          obtain ⟨⟨hh, t9⟩, h9, h⟩ := except_bind_ok h
          try simp only [] at h
          obtain ⟨⟨dc, u1⟩, h10b, h⟩ := except_bind_ok h
          try simp only [] at h
          obtain ⟨m2, h11, h⟩ := except_bind_ok h
          try simp only [] at h
          simp only [Except.ok.injEq, Prod.mk.injEq] at h
          obtain ⟨-, h13⟩ := h
          subst h13
          exact readFDIDirs_sorted dc u1 [] _ h11 List.chain'_nil
        · rw [if_neg hff] at h
          simp only [Except.ok.injEq, Prod.mk.injEq] at h
          obtain ⟨-, h13⟩ := h
          subst h13
          exact List.chain'_nil
    · rw [if_neg h10] at h
      obtain ⟨m2, h11, h⟩ := except_bind_ok h
      try simp only [] at h
      simp only [Except.ok.injEq, Prod.mk.injEq] at h
      obtain ⟨-, h13⟩ := h
      subst h13
      exact readEntriesLegacy_sorted f.version f.version_major cnt t2 [] _ h11
        List.chain'_nil

theorem tryVersions_sorted (file : Bytes) :
    ∀ (vs : List Version) (m : PakModel), tryVersions file vs = .ok m →
      List.Chain' (fun a b => listLt a.1 b.1 = true) m.entries := by
  intro vs
  induction vs with
  | nil =>
    intro m h
    simp only [tryVersions] at h
    exact Except.noConfusion h
  | cons v rest ih =>
    intro m h
    cases hf : read_footer v file with
    | error err =>
      simp only [tryVersions, hf] at h
      exact ih m h
    | ok f =>
      cases hi : read_index f file with
      | error err =>
        simp only [tryVersions, hf, hi] at h
        exact ih m h
      | ok pr =>
        obtain ⟨mnt, es⟩ := pr
        simp only [tryVersions, hf, hi, Except.ok.injEq] at h
        subst h
        exact read_index_sorted f file mnt es hi

/-- C10: for every successfully opened PAK, files() lists the stored paths
in strictly increasing byte-wise lexicographic order (hence each exactly
once, independent of the order entries appeared in the index), and the map
assignment used for every insertion makes the last entry written for a key
the one that is kept. -/
theorem claim_C10 (file : Bytes) (m : PakModel) (h : pakOpen file = .ok m) :
    List.Chain' (fun a b => listLt a b = true) m.files ∧
    ∀ (k : Bytes) (v : Entry), lookupEntry (insertEntry m.entries k v) k = some v := by
  constructor
  · exact (List.chain'_map Prod.fst).mpr (tryVersions_sorted file candidateVersions m h)
  · intro k v
    exact lookupEntry_insertEntry m.entries k v

theorem claim_C10_witness :
    List.Chain' (fun a b => listLt a b = true) c6Model.files ∧
    lookupEntry (insertEntry c6Model.entries [99] c6Entry) [99] = some c6Entry :=
  ⟨(claim_C10 c6Bytes c6Model rfl).1,
   (claim_C10 c6Bytes c6Model rfl).2 [99] c6Entry⟩

end Pak

namespace Pak
open PakUtoc

theorem encLE_length : ∀ (k n : Nat), (encLE k n).length = k := by
  intro k
  induction k with
  | zero => intro n; rfl
  | succ j ih => intro n; simp [encLE, ih]

theorem rdLE_encLE : ∀ (k n : Nat) (r : Bytes),
    rdLE k (encLE k n ++ r) = some (n % 256 ^ k, r) := by
  intro k
  induction k with
  | zero => intro n r; simp [rdLE, encLE, Nat.mod_one]
  | succ j ih =>
    intro n r
    have hsh : encLE (j + 1) n ++ r = n % 256 :: (encLE j (n / 256) ++ r) := rfl
    rw [hsh]
    simp only [rdLE]
    rw [ih]
    simp only [Option.map_some']
    rw [pow_succ, Nat.mul_comm (256 ^ j) 256, Nat.mod_mul]

theorem pLE_encLE (k n : Nat) (r : Bytes) (h : n < 256 ^ k) :
    pLE k (encLE k n ++ r) = .ok (n, r) := by
  rw [pLE, rdLE_encLE, Nat.mod_eq_of_lt h]

theorem pBytes_exact (n : Nat) (l r : Bytes) (h : l.length = n) :
    pBytes n (l ++ r) = .ok (l, r) := by
  subst h
  rw [pBytes, takeN, if_pos (by simp), List.take_left, List.drop_left]

theorem pBytes_all (n : Nat) (l : Bytes) (h : l.length = n) :
    pBytes n l = .ok (l, []) := by
  subst h
  rw [pBytes, takeN, if_pos (by simp), List.take_length, List.drop_length]

theorem pBool_encBool (b : Bool) (r : Bytes) :
    pBool ((if b then 1 else 0) :: r) = .ok (b, r) := by
  cases b <;> rfl

theorem encName_length (s : Option Compression) : (encName s).length = 32 := by
  cases s with
  | none => rfl
  | some c => cases c <;> rfl

theorem decode_encName (s : Option Compression) :
    decodeCompressionName (encName s) = s := by
  cases s with
  | none => rfl
  | some c => cases c <;> rfl

theorem readNames_flatMap :
    ∀ (slots : List (Option Compression)) (r : Bytes),
      readCompressionNames slots.length (slots.flatMap encName ++ r) =
        .ok (slots, r) := by
  intro slots
  induction slots with
  | nil => intro r; rfl
  | cons s t ih =>
    intro r
    simp only [List.length_cons, List.flatMap_cons, List.append_assoc]
    simp only [readCompressionNames, bind, Except.bind,
      pBytes_exact 32 (encName s) _ (encName_length s), ih, decode_encName]

theorem readNames_flatMap_all (slots : List (Option Compression)) :
    readCompressionNames slots.length (slots.flatMap encName) =
      .ok (slots, []) := by
  have h := readNames_flatMap slots []
  simpa using h

theorem flatMap_encName_length (slots : List (Option Compression)) :
    (slots.flatMap encName).length = 32 * slots.length := by
  induction slots with
  | nil => rfl
  | cons s t ih =>
    simp [List.flatMap_cons, encName_length, ih, Nat.mul_succ, Nat.add_comm]

theorem vmaj_lt8_iff (v : Version) : version_to_major v < 8 ↔ versionIdx v < 8 := by
  cases v <;> simp [version_to_major, versionIdx]

theorem version_to_major_lt (v : Version) : version_to_major v < 2 ^ 32 := by
  cases v <;> decide

theorem encodeFooter_length (v : Version) (f : Footer) (hh : f.hash.length = 20)
    (hc : if versionIdx v < 8 then
            f.compression = [some .Zlib, some .Gzip, some .Oodle]
          else if versionIdx v < 9 then f.compression.length = 4
          else f.compression.length = 5) :
    (encodeFooter v f).length = get_footer_size v := by
  unfold encodeFooter get_footer_size wireNames
  by_cases h8 : versionIdx v < 8
  · rw [if_pos h8] at hc
    rw [if_pos h8]
    have h8n : ¬ 8 ≤ versionIdx v := by omega
    have h9n : ¬ 9 ≤ versionIdx v := by omega
    simp only [List.length_append, apply_ite List.length, encLE_length,
      List.length_nil, List.length_cons, hh, List.flatMap_nil,
      if_neg h8n, if_neg h9n]
    split_ifs <;> omega
  · rw [if_neg h8] at hc
    rw [if_neg h8]
    have h8y : 8 ≤ versionIdx v := by omega
    by_cases h9 : versionIdx v < 9
    · rw [if_pos h9] at hc
      have h9n : ¬ 9 ≤ versionIdx v := by omega
      simp only [List.length_append, apply_ite List.length, encLE_length,
        List.length_nil, List.length_cons, hh, flatMap_encName_length, hc,
        if_pos h8y, if_neg h9n]
      split_ifs <;> omega
    · rw [if_neg h9] at hc
      have h9y : 9 ≤ versionIdx v := by omega
      simp only [List.length_append, apply_ite List.length, encLE_length,
        List.length_nil, List.length_cons, hh, flatMap_encName_length, hc,
        if_pos h8y, if_pos h9y]
      split_ifs <;> omega

theorem read_footer_encodeFooter (v : Version) (f : Footer) (pre : Bytes)
    (hwf : wfFooter v f) : read_footer v (pre ++ encodeFooter v f) = .ok f := by
  obtain ⟨uuid, enc, mg, ver, vm, io, isz, hsh, fr, comp⟩ := f
  obtain ⟨hver, hmag, hvm, huuid, henc, hio, his, hhash, hfrz, hcomp⟩ := hwf
  have hlen := encodeFooter_length v ⟨uuid, enc, mg, ver, vm, io, isz, hsh, fr, comp⟩
    hhash hcomp
  simp only at hver hmag hvm huuid henc hio his hhash hfrz hcomp
  unfold read_footer
  rw [if_pos (by rw [List.length_append, hlen]; omega)]
  have hdrop : (pre ++ encodeFooter v ⟨uuid, enc, mg, ver, vm, io, isz, hsh, fr, comp⟩).drop
      ((pre ++ encodeFooter v ⟨uuid, enc, mg, ver, vm, io, isz, hsh, fr, comp⟩).length
        - get_footer_size v) =
      encodeFooter v ⟨uuid, enc, mg, ver, vm, io, isz, hsh, fr, comp⟩ := by
    rw [List.length_append, hlen, Nat.add_sub_cancel, List.drop_left]
  rw [hdrop]
  have hio2 : io < 256 ^ 8 := by
    have h28 : (2 : Nat) ^ 64 = 256 ^ 8 := by norm_num
    omega
  have his2 : isz < 256 ^ 8 := by
    have h28 : (2 : Nat) ^ 64 = 256 ^ 8 := by norm_num
    omega
  subst hver hmag hvm
  cases ver <;>
  · norm_num [version_to_major, versionIdx] at huuid henc hfrz hcomp ⊢
    try subst huuid
    try subst henc
    try subst hfrz
    try subst hcomp
    try (obtain ⟨u, hu⟩ := Option.isSome_iff_exists.mp huuid.1; subst hu)
    simp only [encodeFooter, wireNames, version_to_major, versionIdx, MAGIC]
    norm_num
    try rw [pLE_encLE 16 u _ (by have h2 : (2 : Nat) ^ 128 = 256 ^ 16 := (by norm_num); have hb := huuid.2; simp only [Option.getD_some] at hb; omega)]
    try simp only [Except.map]
    try simp only []
    try rw [pBool_encBool enc]
    try simp only []
    rw [pLE_encLE 4 1517228769 _ (by norm_num)]
    try simp only []
    try rw [if_pos rfl]
    first
      | rw [pLE_encLE 4 0 _ (by norm_num)] | rw [pLE_encLE 4 1 _ (by norm_num)]
      | rw [pLE_encLE 4 2 _ (by norm_num)] | rw [pLE_encLE 4 3 _ (by norm_num)]
      | rw [pLE_encLE 4 4 _ (by norm_num)] | rw [pLE_encLE 4 5 _ (by norm_num)]
      | rw [pLE_encLE 4 6 _ (by norm_num)] | rw [pLE_encLE 4 7 _ (by norm_num)]
      | rw [pLE_encLE 4 8 _ (by norm_num)] | rw [pLE_encLE 4 9 _ (by norm_num)]
      | rw [pLE_encLE 4 10 _ (by norm_num)] | rw [pLE_encLE 4 11 _ (by norm_num)]
    try simp only []
    try rw [if_pos rfl]
    rw [pLE_encLE 8 io _ hio2]
    try simp only []
    rw [pLE_encLE 8 isz _ his2]
    try simp only []
    first
      | rw [pBytes_all 20 hsh hhash]
      | rw [pBytes_exact 20 hsh _ hhash]
    try simp only []
    try rw [pBool_encBool fr]
    try simp only []
    try rw [show (4 : Nat) = List.length comp from hcomp.symm,
      readNames_flatMap_all comp]
    try rw [show (5 : Nat) = List.length comp from hcomp.symm,
      readNames_flatMap_all comp]
    try simp only [readCompressionNames]
    norm_num

end Pak

namespace Pak
open PakUtoc

/-- C5: the version-dependent footer size used by the decoder equals the
specification's formula (44 bytes plus the version-gated increments), and
decoding a footer produced by the reference encoder of that layout — placed
at file_size minus footer_size, after an arbitrary prefix — reproduces the
original footer struct for every version and well-formed footer. -/
theorem claim_C5 :
    (∀ v : Version, get_footer_size v = specFooterSize v) ∧
    ∀ (v : Version) (f : Footer) (pre : Bytes), wfFooter v f →
      read_footer v (pre ++ encodeFooter v f) = .ok f := by
  constructor
  · intro v
    cases v <;> rfl
  · intro v f pre hwf
    exact read_footer_encodeFooter v f pre hwf

theorem claim_C5_witness :
    get_footer_size .V11 = specFooterSize .V11 ∧
    read_footer .V11 ([] ++ encodeFooter .V11 c5Footer) = .ok c5Footer :=
  ⟨claim_C5.1 .V11,
   claim_C5.2 .V11 c5Footer []
     (by refine ⟨rfl, rfl, rfl, ?_, ?_, ?_, ?_, ?_, ?_, ?_⟩ <;>
       simp [c5Footer, version_to_major, versionIdx])⟩

end Pak
